import Mathlib

/-!
Verification of the firego Firebase REST client (`firebase.go`).

The Go source is shallowly embedded as follows.

* Go strings that need structural reasoning (URLs, child path segments) are
  modelled as `List Char` (`Str`); query-parameter keys and values and HTTP
  bodies stay Lean `String`s.  Percent-escaping performed by
  `url.Values.Encode` / `url.QueryEscape` is not modelled: escaping is
  injective, so the equalities of encodings that the claims compare are
  unaffected, and none of the claims mention escaped characters.
* `url.Values` (`map[string][]string`) is modelled as an association list
  with unique keys (`Params`).  Go's map iteration order is irrelevant to
  every claim because `Encode` sorts keys.
* Go's reference semantics for maps matter to the frame/aliasing claims, so
  the query map of each `Firebase` value lives in an explicit `Heap` (a
  function store indexed by `Nat`); `params = none` models Go's nil map,
  the zero value `url.Values(nil)` that `PushC` leaves in the struct it
  builds.  Writing through a nil map (`url.Values.Set` on it) panics in Go;
  operations that would panic return `none`.
* The HTTP transport is the external capability `perform(request)`; one
  round trip's outcome is the inductive `HTTPOutcome` (either a transport
  error, faithfully classified by the `GoError` model below, or a response
  with a status code and a fully-read body; `ioutil.ReadAll` errors are not
  modelled as no claim involves them).
* `encoding/json` is the external serialize/deserialize capability: the
  deserializer is passed in as a function argument where a claim needs it.
* The watch subsystem (`watchMtx`, `watching`, `stopWatching`) appears only
  through the `stopWatching` channel slot (`Option Unit`; `none` = nil
  channel), which is all the claims inspect.
-/

deriving instance DecidableEq for Except

/-! ## Strings as character lists -/

abbrev Str := List Char

/-- `strings.HasPrefix p s` (argument order: prefix first). -/
def hasPfx : Str → Str → Bool
  | [], _ => true
  | _ :: _, [] => false
  | a :: as, b :: bs => a == b && hasPfx as bs

/-- `strings.HasSuffix p s` (argument order: suffix first). -/
def hasSfx (p s : Str) : Bool := hasPfx p.reverse s.reverse

/-- `sanitizeURL` (firebase.go:256-266): default the scheme to `https://`
when neither scheme is present, then strip one trailing `/`
(`url[:len(url)-1]`; the stripped byte is the ASCII `/`, so dropping the
last char is exact). -/
def sanitizeURL (url : Str) : Str :=
  let url := if !(hasPfx "https://".data url) && !(hasPfx "http://".data url)
             then "https://".data ++ url else url
  if hasSfx "/".data url then url.dropLast else url

/-! ## Query parameters (`url.Values`) -/

/-- `url.Values`: a map from parameter name to slice of values, as an
association list with unique keys. -/
abbrev Params := List (String × List String)

/-- `url.Values.Set k v`: replace the whole value slice for `k` by `[v]`. -/
def Params.set (p : Params) (k v : String) : Params :=
  p.filter (fun kv => !(kv.1 == k)) ++ [(k, [v])]

/-- `url.Values.Del k`: remove the key. -/
def Params.del (p : Params) (k : String) : Params :=
  p.filter (fun kv => !(kv.1 == k))

/-- `url.Values.Add k v`: append `v` to the value slice of `k`. -/
def Params.add (p : Params) (k v : String) : Params :=
  if p.any (fun kv => kv.1 == k) then
    p.map (fun kv => if kv.1 == k then (kv.1, kv.2 ++ [v]) else kv)
  else p ++ [(k, [v])]

/-- `url.Values.Get k`-like lookup of the full value slice (`[]` when the
key is absent). -/
def Params.vals (p : Params) (k : String) : List String :=
  match p.find? (fun kv => kv.1 == k) with
  | some kv => kv.2
  | none => []

/-- Lexicographic string order (Go's `sort.Strings` order; the claims only
involve ASCII keys, where byte order and codepoint order agree). -/
def lexLe : Str → Str → Bool
  | [], _ => true
  | _ :: _, [] => false
  | a :: as, b :: bs =>
    if a.toNat < b.toNat then true
    else if b.toNat < a.toNat then false
    else lexLe as bs

/-- Insertion step for the key sort performed by `Encode`. -/
def insertSorted (le : α → α → Bool) (a : α) : List α → List α
  | [] => [a]
  | b :: bs => if le a b then a :: b :: bs else b :: insertSorted le a bs

/-- Insertion sort (the`sort.Strings` call in `Encode`; any correct sort
gives the same result because keys are unique). -/
def sortBy (le : α → α → Bool) : List α → List α
  | [] => []
  | a :: as => insertSorted le a (sortBy le as)

/-- `url.Values.Encode`: keys sorted ascending, each value of a key emitted
as `k=v` in slice order, joined by `&` (percent-escaping not modelled, see
the header). -/
def encodeParams (p : Params) : String :=
  let sorted := sortBy (fun a b => lexLe a.1.data b.1.data) p
  String.intercalate "&" (sorted.foldr (fun kv acc => kv.2.map (fun v => kv.1 ++ "=" ++ v) ++ acc) [])

/-- The `url.ParseQuery(params.Encode())` round trip used by `String()` as a
deep-copy idiom: because `Encode` escapes `&`, `=`, `%`, the round trip
reproduces the map exactly, except that a key whose value slice is empty
emits nothing and therefore vanishes. -/
def encDec (p : Params) : Params :=
  p.filter (fun kv => !kv.2.isEmpty)

/-! ## The Go-error model for `doRequest`'s type switch -/

/-- The errors `http.Client.Do` can return: a `*url.Error` wrapping a cause,
a concrete `net.Error` (whose `Timeout()` is the stored flag), or any other
error. -/
inductive GoError
  | urlError (wrapped : GoError)
  | netError (isTimeout : Bool) (msg : String)
  | otherError (msg : String)
deriving DecidableEq

/-- Whether the dynamic type implements `net.Error`: concrete net errors do,
and so does `*url.Error` (it has `Timeout()` and `Temporary()` methods). -/
def GoError.isNetError : GoError → Bool
  | .urlError _ => true
  | .netError _ _ => true
  | .otherError _ => false

/-- `Timeout()`: a `*url.Error` delegates to its wrapped error. -/
def GoError.timeout : GoError → Bool
  | .urlError w => w.timeout
  | .netError t _ => t
  | .otherError _ => false

/-- The errors the firego layer returns to its callers. -/
inductive FError
  | errTimeout (wrapped : GoError)
  | passthrough (e : GoError)
  | appError (body : String)
  | valueMissing
  | unmarshalErr (msg : String)
deriving DecidableEq

/-- The outcome of one HTTP round trip performed by the transport
capability. -/
inductive HTTPOutcome
  | transportErr (e : GoError)
  | response (status : Nat) (body : String)
deriving DecidableEq

/-- `doRequest` (firebase.go:288-333) after `client.Do`: the type switch on
the error (`default` / `nil` / `*url.Error` / `net.Error`), then the status
check `resp.StatusCode/200 != 1` and the body read. -/
def doRequest (out : HTTPOutcome) : Except FError String :=
  match out with
  | .transportErr e =>
    match e with
    | GoError.urlError w =>
      -- e1, ok := err.Err.(net.Error); if ok && e1.Timeout()
      if w.isNetError && w.timeout then Except.error (FError.errTimeout e)
      else Except.error (FError.passthrough e)
    | GoError.netError t _ =>
      -- case net.Error: if err.Timeout()
      if t then Except.error (FError.errTimeout e)
      else Except.error (FError.passthrough e)
    | GoError.otherError _ => Except.error (FError.passthrough e)
  | .response status body =>
    if status / 200 ≠ 1 then Except.error (FError.appError body)
    else Except.ok body

/-! ## The heap of query maps and the `Firebase` struct -/

/-- A store of `url.Values` cells: Go maps are reference values, and the
claims about copy-on-derive and render purity are about which cell an
operation writes, so cells are explicit.  `alloc` hands out index `size`. -/
structure Heap where
  size : Nat
  cells : Nat → Params

def Heap.get (h : Heap) (r : Nat) : Params := h.cells r

def Heap.alloc (h : Heap) (p : Params) : Heap × Nat :=
  ({ size := h.size + 1, cells := fun i => if i = h.size then p else h.cells i }, h.size)

def Heap.write (h : Heap) (r : Nat) (p : Params) : Heap :=
  { h with cells := fun i => if i = r then p else h.cells i }

def emptyHeap : Heap := { size := 0, cells := fun _ => [] }

/-- The `Firebase` struct (firebase.go:55-64).  `params` is the heap index
of the query map (`none` = Go's nil map); `client` is an opaque identity
for the shared `*http.Client`; `tokenSrc` models the installed
`oauth2.TokenSource` by its resolution outcome (`none` = no source,
`some none` = `Token()` fails or returns nil, `some (some t)` = resolves
to access token `t`); `stopWatching` is `none` for a nil channel.
`watchMtx`/`watching` carry no claim-relevant state. -/
structure Firebase where
  url : Str
  params : Option Nat
  client : Nat
  tokenSrc : Option (Option String)
  stopWatching : Option Unit
deriving DecidableEq

/-- `New` (firebase.go:68-94): sanitize the URL, fresh empty params map,
fresh stop channel.  The transport construction is summarized by the
caller-chosen `client` identity. -/
def Firebase.new (url : Str) (client : Nat) (h : Heap) : Firebase × Heap :=
  let (h, r) := h.alloc []
  ({ url := sanitizeURL url, params := some r, client := client,
     tokenSrc := none, stopWatching := some () }, h)

/-- `AccessToken` (firebase.go:98-100): store the token source. -/
def Firebase.accessToken (fb : Firebase) (src : Option (Option String)) (h : Heap) :
    Firebase × Heap :=
  ({ fb with tokenSrc := src }, h)

/-- `Auth` (firebase.go:103-105): `fb.params.Set(authParam, token)`.
Assigning through a nil map panics in Go, modelled as `none`. -/
def Firebase.auth (fb : Firebase) (token : String) (h : Heap) : Option Heap :=
  match fb.params with
  | none => none
  | some r => some (h.write r ((h.get r).set "auth" token))

/-- `Unauth` (firebase.go:108-110): `fb.params.Del(authParam)`; deleting
from a nil map is a no-op in Go. -/
def Firebase.unauth (fb : Firebase) (h : Heap) : Heap :=
  match fb.params with
  | none => h
  | some r => h.write r ((h.get r).del "auth")

/-- `copy` (firebase.go:239-254): fresh struct, fresh params map, entries
copied one by one (ranging over a nil map copies nothing), shared client
and token source, fresh stop channel.  Go shares the value slices between
the two maps, but no operation of the package mutates a slice in place, so
copying them by value is exact. -/
def Firebase.copy (fb : Firebase) (h : Heap) : Firebase × Heap :=
  let src := match fb.params with
    | none => []
    | some r => h.get r
  let (h, r) := h.alloc src
  ({ url := fb.url, params := some r, client := fb.client,
     tokenSrc := fb.tokenSrc, stopWatching := some () }, h)

/-- `Child` (firebase.go:233-237): copy, then `c.url = c.url + "/" + child`. -/
def Firebase.child (fb : Firebase) (name : Str) (h : Heap) : Firebase × Heap :=
  let (c, h) := fb.copy h
  ({ c with url := c.url ++ '/' :: name }, h)

/-- `String` (firebase.go:215-229): path is `url + "/.json"`; the params
are deep-copied into a fresh map by the `ParseQuery(Encode())` round trip;
a token source, when installed and resolving, `Add`s `access_token` to that
local copy only; the query string is appended when the copy has at least
one key.  Returns the rendered string and the heap after the call (the
local copy is a real allocation, so that what the call wrote is visible). -/
def Firebase.render (fb : Firebase) (h : Heap) : Str × Heap :=
  let path := fb.url ++ "/.json".data
  let src := match fb.params with
    | none => []
    | some r => h.get r
  let (h, rc) := h.alloc (encDec src)
  let h := match fb.tokenSrc with
    | some (some t) => h.write rc ((h.get rc).add "access_token" t)
    | _ => h
  let pc := h.get rc
  (if 0 < pc.length then path ++ '?' :: (encodeParams pc).data else path, h)

/-- Heap evolution of `n` successive `String()` calls on the same
reference. -/
def Firebase.renderN (fb : Firebase) : Nat → Heap → Heap
  | 0, h => h
  | n + 1, h => fb.renderN n (fb.render h).2

/-! ## `MustValueC` and `PushC` -/

/-- `MustValueC` (firebase.go:203-211): issue the GET, propagate its error;
an empty or literal-`null` body is `ErrValueMissing` before the
deserializer runs; otherwise hand the body to the external deserializer. -/
def Firebase.mustValueC (out : HTTPOutcome) (unmarshal : String → Except String Unit) :
    Except FError Unit :=
  match doRequest out with
  | .error e => .error e
  | .ok bs =>
    if bs.length = 0 || bs == "null" then .error FError.valueMissing
    else match unmarshal bs with
      | .ok _ => .ok ()
      | .error e => .error (FError.unmarshalErr e)

/-- Go's `m["name"]` with `m : map[string]string`: missing key gives `""`. -/
def lookupStr (m : List (String × String)) (k : String) : String :=
  match m.find? (fun kv => kv.1 == k) with
  | some kv => kv.2
  | none => ""

/-- `PushC` (firebase.go:144-161): POST (the marshalled request body does
not affect the outcome model), propagate request errors, decode the
response into a string map via the external deserializer, and build the
result struct literally as the source does:
`&Firebase{url: fb.url + "/" + m["name"], client: fb.client}` — every other
field keeps its Go zero value (nil params map, nil token source, nil stop
channel). -/
def Firebase.pushC (fb : Firebase) (out : HTTPOutcome)
    (unmarshalMap : String → Except String (List (String × String))) :
    Except FError Firebase :=
  match doRequest out with
  | .error e => .error e
  | .ok bs =>
    match unmarshalMap bs with
    | .error e => .error (FError.unmarshalErr e)
    | .ok m =>
      .ok { url := fb.url ++ '/' :: (lookupStr m "name").data,
            params := none, client := fb.client,
            tokenSrc := none, stopWatching := none }

/-! ## Redirect header preservation -/

/-- `http.Header`: map from canonical key to value slice, unique keys. -/
abbrev Header := List (String × List String)

def Header.setVals (hd : Header) (k : String) (vs : List String) : Header :=
  hd.filter (fun kv => !(kv.1 == k)) ++ [(k, vs)]

def Header.vals (hd : Header) (k : String) : Option (List String) :=
  match hd.find? (fun kv => kv.1 == k) with
  | some kv => some kv.2
  | none => none

def defaultRedirectLimit : Nat := 30

/-- `redirectPreserveHeaders` (firebase.go:271-286): no redirects yet →
accept; more than the limit → reject; otherwise assign every header entry
of the first request (`via[0]`) into the upcoming request's header map.
Returns the resulting header of `req` on acceptance. -/
def redirectPreserveHeaders (reqH : Header) (via : List Header) :
    Except String Header :=
  match via with
  | [] => .ok reqH
  | first :: _ =>
    if via.length > defaultRedirectLimit then
      .error (toString via.length ++ " consecutive requests(redirects)")
    else
      .ok (first.foldl (fun acc kv => acc.setVals kv.1 kv.2) reqH)

/-! ## Derived notions used to state the claims -/

/-- The optional `?query` tail that `String()` appends: present exactly when
the local params copy has at least one key. -/
def querySuffix (p : Params) : Str :=
  if 0 < p.length then '?' :: (encodeParams p).data else []

/-- The content of the local params copy that `String()` renders: the deep
copy of the stored map, plus `access_token` when a token source is
installed and resolves. -/
def renderedParams (fb : Firebase) (h : Heap) : Params :=
  let src := match fb.params with
    | none => []
    | some r => h.get r
  match fb.tokenSrc with
  | some (some t) => (encDec src).add "access_token" t
  | _ => encDec src

/-- A sequence of `Child` derivations starting from a reference. -/
def deriveChildren (fb : Firebase) (h : Heap) (names : List Str) : Firebase × Heap :=
  names.foldl (fun st n => Firebase.child st.1 n st.2) (fb, h)

/-! ## Concrete references used by counterexamples and witnesses -/

def exFb : Firebase := (Firebase.new "https://example.com".data 0 emptyHeap).1

def exHeap : Heap := (Firebase.new "https://example.com".data 0 emptyHeap).2

/-- Heap after `exFb.Auth("a")`. -/
def exHeapA : Heap := (exFb.auth "a" exHeap).getD emptyHeap

/-- Heap after a further `exFb.Auth("b")`. -/
def exHeapB : Heap := (exFb.auth "b" exHeapA).getD emptyHeap

/-- Heap after a final `exFb.Unauth()`. -/
def exHeapU : Heap := exFb.unauth exHeapB

/-- A concrete instance of the external deserializer for the `PushC`
response `{"name":"abc"}`. -/
def exUnmarshalName : String → Except String (List (String × String)) :=
  fun _ => Except.ok [("name", "abc")]

/-- `exFb.PushC` against a 200 response with body `{"name":"abc"}`. -/
def exPushed : Except FError Firebase :=
  exFb.pushC (HTTPOutcome.response 200 "\x7b\"name\":\"abc\"\x7d") exUnmarshalName

/-- `exFb` after installing a token source that resolves to `"T"`. -/
def exFbTok : Firebase := (exFb.accessToken (some (some "T")) exHeap).1

/-- The child `exFbTok.Child("b")`. -/
def exChildTok : Firebase × Heap := exFbTok.child "b".data exHeap

/-! ## Prefix/suffix lemmas -/

theorem hasPfx_iff {p s : Str} : hasPfx p s = true ↔ ∃ t, s = p ++ t := by
  induction p generalizing s with
  | nil => simp [hasPfx]
  | cons a as ih =>
    cases s with
    | nil =>
      simp only [hasPfx, List.cons_append]
      constructor
      · intro h; exact absurd h (by simp)
      · rintro ⟨t, ht⟩; exact absurd ht (by simp)
    | cons b bs =>
      simp only [hasPfx, Bool.and_eq_true, beq_iff_eq, List.cons_append]
      constructor
      · rintro ⟨rfl, h⟩
        obtain ⟨t, rfl⟩ := ih.mp h
        exact ⟨t, rfl⟩
      · rintro ⟨t, ht⟩
        injection ht with hb hbs
        exact ⟨hb.symm, ih.mpr ⟨t, hbs⟩⟩

theorem hasPfx_self_append (p t : Str) : hasPfx p (p ++ t) = true :=
  hasPfx_iff.mpr ⟨t, rfl⟩

theorem hasPfx_append_right {p s : Str} (t : Str) (h : hasPfx p s = true) :
    hasPfx p (s ++ t) = true := by
  obtain ⟨w, rfl⟩ := hasPfx_iff.mp h
  exact hasPfx_iff.mpr ⟨w ++ t, by simp⟩

theorem hasSfx_iff {p s : Str} : hasSfx p s = true ↔ ∃ t, s = t ++ p := by
  unfold hasSfx
  rw [hasPfx_iff]
  constructor
  · rintro ⟨t, ht⟩
    refine ⟨t.reverse, ?_⟩
    have h2 := congrArg List.reverse ht
    simpa using h2
  · rintro ⟨t, rfl⟩
    exact ⟨t.reverse, by simp⟩

theorem getLast?_some_decomp {l : Str} {c : Char} (h : l.getLast? = some c) :
    ∃ w, l = w ++ [c] := by
  have hne : l ≠ [] := by rintro rfl; simp at h
  refine ⟨l.dropLast, ?_⟩
  have h2 := List.dropLast_append_getLast hne
  rw [List.getLast?_eq_getLast _ hne] at h
  rw [← h2]
  simp [Option.some.inj h]

theorem hasSfx_single_iff {c : Char} {s : Str} :
    hasSfx [c] s = true ↔ s.getLast? = some c := by
  rw [hasSfx_iff]
  constructor
  · rintro ⟨t, rfl⟩; exact List.getLast?_concat t
  · exact getLast?_some_decomp

/-! ## `sanitizeURL` lemmas -/

/-- A string with a scheme and no trailing slash is a fixed point. -/
theorem sanitize_fixed {r : Str}
    (hp : hasPfx "https://".data r = true ∨ hasPfx "http://".data r = true)
    (hs : hasSfx "/".data r = false) : sanitizeURL r = r := by
  unfold sanitizeURL
  rcases hp with h | h <;> simp [h, hs]

/-- Core of the trailing-slash step: stripping one trailing `/` from a
scheme-carrying string that is more than the bare scheme and does not end
in `//` keeps the scheme and leaves no trailing slash. -/
theorem sanitize_step2 {SCH v : Str} (hpfx : hasPfx SCH v = true)
    (hne : v ≠ SCH) (hd : hasSfx "//".data v = false) :
    hasPfx SCH (if hasSfx "/".data v then v.dropLast else v) = true ∧
    hasSfx "/".data (if hasSfx "/".data v then v.dropLast else v) = false := by
  rw [show ("/".data : Str) = ['/'] from rfl]
  rw [show ("//".data : Str) = ['/', '/'] from rfl] at hd
  by_cases hs : hasSfx ['/'] v = true
  · rw [if_pos hs]
    obtain ⟨t, rfl⟩ := hasSfx_iff.mp hs
    rw [List.dropLast_concat]
    constructor
    · -- the scheme prefix survives the strip
      obtain ⟨w, hw⟩ := hasPfx_iff.mp hpfx
      have hwne : w ≠ [] := by
        rintro rfl
        exact hne (by simpa using hw)
      have hwl : w.getLast? = some '/' := by
        have h1 : (t ++ ['/']).getLast? = some '/' := List.getLast?_concat t
        rw [hw, List.getLast?_append_of_ne_nil _ hwne] at h1
        exact h1
      obtain ⟨w', rfl⟩ := getLast?_some_decomp hwl
      have ht : t = SCH ++ w' := by
        have h2 : t ++ ['/'] = (SCH ++ w') ++ ['/'] := by
          rw [hw]; simp
        exact List.append_cancel_right h2
      rw [ht]
      exact hasPfx_self_append _ _
    · -- no trailing slash survives (else v ended in //)
      by_contra hc
      rw [Bool.not_eq_false] at hc
      obtain ⟨t', rfl⟩ := hasSfx_iff.mp hc
      have : hasSfx ['/', '/'] (t' ++ ['/'] ++ ['/']) = true :=
        hasSfx_iff.mpr ⟨t', by simp⟩
      rw [hd] at this
      exact Bool.false_ne_true this
  · rw [if_neg hs]
    exact ⟨hpfx, by simpa using hs⟩

/-- Prepending the default scheme to a nonempty input other than `/` that
does not end in `//` cannot create a trailing `//`. -/
theorem no_dbl_slash_append {u : Str} (h0 : u ≠ []) (h1 : u ≠ "/".data)
    (h4 : hasSfx "//".data u = false) :
    hasSfx "//".data ("https://".data ++ u) = false := by
  rw [show ("//".data : Str) = ['/', '/'] from rfl] at h4 ⊢
  rw [show ("/".data : Str) = ['/'] from rfl] at h1
  by_contra hc
  rw [Bool.not_eq_false] at hc
  obtain ⟨t, ht⟩ := hasSfx_iff.mp hc
  have hlast : u.getLast? = some '/' := by
    have hl : ("https://".data ++ u).getLast? = some '/' := by
      rw [ht, show t ++ ['/', '/'] = (t ++ ['/']) ++ ['/'] by simp]
      exact List.getLast?_concat _
    rwa [List.getLast?_append_of_ne_nil _ h0] at hl
  obtain ⟨w, rfl⟩ := getLast?_some_decomp hlast
  have hw : "https://".data ++ w = t ++ ['/'] := by
    have h2 := ht
    rw [show "https://".data ++ (w ++ ['/']) = ("https://".data ++ w) ++ ['/'] by simp,
        show t ++ ['/', '/'] = (t ++ ['/']) ++ ['/'] by simp] at h2
    exact List.append_cancel_right h2
  by_cases hwnil : w = []
  · subst hwnil
    exact h1 rfl
  · have hwl : w.getLast? = some '/' := by
      have h3 : ("https://".data ++ w).getLast? = some '/' := by
        rw [hw]; exact List.getLast?_concat t
      rwa [List.getLast?_append_of_ne_nil _ hwnil] at h3
    obtain ⟨w2, rfl⟩ := getLast?_some_decomp hwl
    have h5 : hasSfx ['/', '/'] (w2 ++ ['/'] ++ ['/']) = true :=
      hasSfx_iff.mpr ⟨w2, by simp⟩
    rw [h4] at h5
    exact Bool.false_ne_true h5

/-- The three guarantees of `sanitizeURL` on every input outside the four
failing shapes (empty, bare `/`, a bare scheme, trailing `//`). -/
theorem sanitize_good {u : Str} (h0 : u ≠ []) (h1 : u ≠ "/".data)
    (h2 : u ≠ "http://".data) (h3 : u ≠ "https://".data)
    (h4 : hasSfx "//".data u = false) :
    (hasPfx "https://".data (sanitizeURL u) = true ∨
      hasPfx "http://".data (sanitizeURL u) = true) ∧
    hasSfx "/".data (sanitizeURL u) = false ∧
    sanitizeURL (sanitizeURL u) = sanitizeURL u := by
  have main : (hasPfx "https://".data (sanitizeURL u) = true ∨
      hasPfx "http://".data (sanitizeURL u) = true) ∧
      hasSfx "/".data (sanitizeURL u) = false := by
    by_cases hA : hasPfx "https://".data u = true
    · have hred : sanitizeURL u = (if hasSfx "/".data u then u.dropLast else u) := by
        unfold sanitizeURL; simp [hA]
      rw [hred]
      have hh := sanitize_step2 hA h3 h4
      exact ⟨Or.inl hh.1, hh.2⟩
    · by_cases hB : hasPfx "http://".data u = true
      · have hred : sanitizeURL u = (if hasSfx "/".data u then u.dropLast else u) := by
          unfold sanitizeURL; simp [hB]
        rw [hred]
        have hh := sanitize_step2 hB h2 h4
        exact ⟨Or.inr hh.1, hh.2⟩
      · have hA' : hasPfx "https://".data u = false := by simpa using hA
        have hB' : hasPfx "http://".data u = false := by simpa using hB
        have hred : sanitizeURL u =
            (if hasSfx "/".data ("https://".data ++ u)
             then ("https://".data ++ u).dropLast else ("https://".data ++ u)) := by
          unfold sanitizeURL; simp [hA', hB']
        have hne : "https://".data ++ u ≠ "https://".data := by
          intro hcontra
          apply h0
          have h5 : "https://".data ++ u = "https://".data ++ [] := by simpa using hcontra
          exact List.append_cancel_left h5
        have hd := no_dbl_slash_append h0 h1 h4
        have hh := sanitize_step2 (hasPfx_self_append "https://".data u) hne hd
        rw [hred]
        exact ⟨Or.inl hh.1, hh.2⟩
  exact ⟨main.1, main.2, sanitize_fixed main.1 main.2⟩

/-! ## Heap lemmas -/

theorem Heap.get_alloc_new (h : Heap) (p : Params) :
    (h.alloc p).1.get (h.alloc p).2 = p := by
  simp [Heap.alloc, Heap.get]

theorem Heap.get_alloc_old (h : Heap) (p : Params) {r : Nat} (hr : r < h.size) :
    (h.alloc p).1.get r = h.get r := by
  simp [Heap.alloc, Heap.get, Nat.ne_of_lt hr]

theorem Heap.get_write_self (h : Heap) (r : Nat) (p : Params) :
    (h.write r p).get r = p := by
  simp [Heap.write, Heap.get]

theorem Heap.get_write_ne (h : Heap) (p : Params) {r r' : Nat} (hne : r' ≠ r) :
    (h.write r p).get r' = h.get r' := by
  simp [Heap.write, Heap.get, hne]

/-! ## `String()` (render) lemmas -/

/-- What `String()` returns: the `.json` path plus the query suffix of the
locally assembled params copy. -/
theorem render_fst (fb : Firebase) (h : Heap) :
    (fb.render h).1 = fb.url ++ "/.json".data ++ querySuffix (renderedParams fb h) := by
  rcases fb with ⟨url, params, client, tokenSrc, stop⟩
  rcases tokenSrc with _ | tok
  · simp only [Firebase.render, renderedParams, querySuffix]
    rw [Heap.get_alloc_new]
    by_cases hlen : 0 < (encDec (match params with | none => [] | some r => h.get r)).length <;>
      simp [hlen, List.append_assoc]
  · rcases tok with _ | t
    · simp only [Firebase.render, renderedParams, querySuffix]
      rw [Heap.get_alloc_new]
      by_cases hlen : 0 < (encDec (match params with | none => [] | some r => h.get r)).length <;>
        simp [hlen, List.append_assoc]
    · simp only [Firebase.render, renderedParams, querySuffix]
      rw [Heap.get_write_self, Heap.get_alloc_new]
      by_cases hlen :
          0 < ((encDec (match params with | none => [] | some r => h.get r)).add "access_token" t).length <;>
        simp [hlen, List.append_assoc]

/-- `String()` grows the heap by exactly the one local copy cell. -/
theorem render_snd_size (fb : Firebase) (h : Heap) :
    (fb.render h).2.size = h.size + 1 := by
  rcases fb with ⟨url, params, client, tokenSrc, stop⟩
  rcases tokenSrc with _ | (_ | t) <;>
    simp [Firebase.render, Heap.alloc, Heap.write]

/-- `String()` writes no pre-existing cell. -/
theorem render_snd_get (fb : Firebase) (h : Heap) {r : Nat} (hr : r < h.size) :
    (fb.render h).2.get r = h.get r := by
  rcases fb with ⟨url, params, client, tokenSrc, stop⟩
  rcases tokenSrc with _ | (_ | t) <;>
    simp [Firebase.render, Heap.alloc, Heap.write, Heap.get, Nat.ne_of_lt hr]

/-- The rendered string depends on the heap only through the reference's
own cell. -/
theorem render_congr (fb : Firebase) {h h' : Heap} {r : Nat} (hp : fb.params = some r)
    (hh : h'.get r = h.get r) : (fb.render h').1 = (fb.render h).1 := by
  rw [render_fst, render_fst]
  simp only [renderedParams, hp]
  rw [hh]

/-- Iterated `String()` calls never write any pre-existing cell. -/
theorem renderN_frame (fb : Firebase) {r : Nat} :
    ∀ (n : Nat) (h : Heap), r < h.size →
      (fb.renderN n h).get r = h.get r ∧ r < (fb.renderN n h).size := by
  intro n
  induction n with
  | zero => intro h hr; exact ⟨rfl, hr⟩
  | succ n ih =>
    intro h hr
    have h1 : r < (fb.render h).2.size := by rw [render_snd_size]; omega
    have h2 := ih (fb.render h).2 h1
    rw [Firebase.renderN]
    exact ⟨by rw [h2.1, render_snd_get fb h hr], h2.2⟩

/-! ## Association-list lemmas for `Params` and `Header` -/

/-- `Del` after `Set` restores a map that had no binding for the key. -/
theorem Params.del_set_cancel (p : Params) (k v : String)
    (hk : ∀ kv ∈ p, kv.1 ≠ k) : (p.set k v).del k = p := by
  unfold Params.set Params.del
  rw [List.filter_append]
  have h1 : p.filter (fun kv => !(kv.1 == k)) = p :=
    List.filter_eq_self.mpr (fun a ha => by simpa using hk a ha)
  simp [h1]

theorem find?_filter_keep (p : Header) (k k' : String) (hne : k' ≠ k) :
    (p.filter (fun kv => !(kv.1 == k'))).find? (fun kv => kv.1 == k)
      = p.find? (fun kv => kv.1 == k) := by
  induction p with
  | nil => rfl
  | cons a tl ih =>
    by_cases ha : a.1 = k'
    · have hk : (a.1 == k) = false := by
        subst ha; simpa using hne
      rw [List.filter_cons_of_neg (by simp [ha]), List.find?_cons_of_neg _ (by simp [hk]), ih]
    · by_cases hak : a.1 = k
      · rw [List.filter_cons_of_pos (by simp [ha]),
            List.find?_cons_of_pos _ (by simp [hak]),
            List.find?_cons_of_pos _ (by simp [hak])]
      · rw [List.filter_cons_of_pos (by simp [ha]),
            List.find?_cons_of_neg _ (by simp [hak]),
            List.find?_cons_of_neg _ (by simp [hak]), ih]

theorem find?_filter_none (p : Header) (k : String) :
    (p.filter (fun kv => !(kv.1 == k))).find? (fun kv => kv.1 == k) = none := by
  apply List.find?_eq_none.mpr
  intro x hx
  have hmem := List.mem_filter.mp hx
  simpa using hmem.2

theorem Header.vals_setVals_self (hd : Header) (k : String) (vs : List String) :
    (hd.setVals k vs).vals k = some vs := by
  unfold Header.setVals Header.vals
  rw [List.find?_append, find?_filter_none]
  simp [List.find?]

theorem Header.vals_setVals_ne (hd : Header) {k k' : String} (vs : List String)
    (hne : k' ≠ k) : (hd.setVals k' vs).vals k = hd.vals k := by
  unfold Header.setVals Header.vals
  rw [List.find?_append, find?_filter_keep hd k k' hne]
  cases hfind : hd.find? (fun kv => kv.1 == k) with
  | some kv => simp
  | none =>
    have hkk : (k' == k) = false := by simpa using hne
    simp [List.find?, hkk]

/-- Folding header assignments whose keys all differ from `k` leaves the
binding of `k` alone. -/
theorem foldl_setVals_untouched (es : Header) (k : String) :
    ∀ acc : Header, (∀ e ∈ es, e.1 ≠ k) →
      (es.foldl (fun acc kv => acc.setVals kv.1 kv.2) acc).vals k = acc.vals k := by
  induction es with
  | nil => intro acc _; rfl
  | cons a tl ih =>
    intro acc hk
    rw [List.foldl_cons, ih _ (fun e he => hk e (List.mem_cons_of_mem _ he))]
    exact Header.vals_setVals_ne acc a.2 (hk a (List.mem_cons_self _ _))

/-- After folding the assignments of a duplicate-free header, every one of
its entries is bound in the result. -/
theorem foldl_setVals_mem (es : Header) (k : String) (vs : List String) :
    ∀ acc : Header, es.Pairwise (fun a b => a.1 ≠ b.1) → (k, vs) ∈ es →
      (es.foldl (fun acc kv => acc.setVals kv.1 kv.2) acc).vals k = some vs := by
  induction es with
  | nil => intro _ _ hmem; cases hmem
  | cons a tl ih =>
    intro acc hpw hmem
    rw [List.foldl_cons]
    rcases List.mem_cons.mp hmem with heq | hmem'
    · have hk : ∀ e ∈ tl, e.1 ≠ k := by
        intro e he hek
        have hne := (List.pairwise_cons.mp hpw).1 e he
        rw [← heq] at hne
        exact hne hek.symm
      rw [foldl_setVals_untouched tl k _ hk, ← heq]
      exact Header.vals_setVals_self acc k vs
    · exact ih _ (List.pairwise_cons.mp hpw).2 hmem'

/-! ## Remaining helper lemmas -/

theorem GoError.timeout_isNet {e : GoError} (h : e.timeout = true) :
    e.isNetError = true := by
  cases e with
  | urlError w => rfl
  | netError t m => rfl
  | otherError m => simp [GoError.timeout] at h

theorem doRequest_ne_valueMissing (out : HTTPOutcome) :
    doRequest out ≠ Except.error FError.valueMissing := by
  cases out with
  | transportErr e => cases e <;> simp [doRequest] <;> split <;> simp
  | response status body =>
    simp only [doRequest]
    split <;> simp

theorem string_length_zero_iff (s : String) : s.length = 0 ↔ s = "" := by
  rw [String.ext_iff]
  cases s with
  | mk d => simp [String.length]

/-- `Child` only changes the URL of the copied struct. -/
theorem child_url_eq (fb : Firebase) (name : Str) (h : Heap) :
    (fb.child name h).1.url = fb.url ++ '/' :: name := rfl

/-- Derivation steps preserve the scheme prefix and the absence of a
trailing slash, provided each child name is nonempty and does not end in
`/`. -/
theorem deriveChildren_inv (names : List Str) :
    ∀ (fb : Firebase) (h : Heap),
      (hasPfx "https://".data fb.url = true ∨ hasPfx "http://".data fb.url = true) →
      hasSfx "/".data fb.url = false →
      (∀ n ∈ names, n ≠ [] ∧ n.getLast? ≠ some '/') →
      (hasPfx "https://".data (deriveChildren fb h names).1.url = true ∨
        hasPfx "http://".data (deriveChildren fb h names).1.url = true) ∧
      hasSfx "/".data (deriveChildren fb h names).1.url = false := by
  induction names with
  | nil => intro fb h hp hs _; exact ⟨hp, hs⟩
  | cons n ns ih =>
    intro fb h hp hs hn
    have hn1 := hn n (List.mem_cons_self _ _)
    have hstep : deriveChildren fb h (n :: ns)
        = deriveChildren (fb.child n h).1 (fb.child n h).2 ns := rfl
    rw [hstep]
    have hlast : ((fb.child n h).1.url).getLast? = n.getLast? := by
      rw [child_url_eq, List.getLast?_append_of_ne_nil _ (by simp)]
      cases n with
      | nil => exact absurd rfl hn1.1
      | cons a as => exact List.getLast?_cons_cons
    have hpfx' : hasPfx "https://".data (fb.child n h).1.url = true ∨
        hasPfx "http://".data (fb.child n h).1.url = true := by
      rw [child_url_eq]
      rcases hp with hh | hh
      · exact Or.inl (hasPfx_append_right _ hh)
      · exact Or.inr (hasPfx_append_right _ hh)
    have hsfx' : hasSfx "/".data (fb.child n h).1.url = false := by
      rw [show ("/".data : Str) = ['/'] from rfl]
      by_contra hcon
      rw [Bool.not_eq_false] at hcon
      exact hn1.2 (hlast ▸ hasSfx_single_iff.mp hcon)
    exact ih _ _ hpfx' hsfx' (fun m hm => hn m (List.mem_cons_of_mem _ hm))

/-! ## Claim theorems -/

/-- Claim C1, counterexample: the claim says a response whose status is
outside `[200,300)` yields an application error carrying the body, but the
source tests `resp.StatusCode/200 != 1`, so status 300 — outside
`[200,300)` — is returned as a success with the body as the value. -/
theorem doRequest_status_cex :
    doRequest (HTTPOutcome.response 300 "x") = Except.ok "x" ∧
    ¬(200 ≤ 300 ∧ 300 < 300) := by decide

/-- Claim C1 (amended): `doRequest` returns an application error carrying
exactly the response body if and only if the status is outside `[200,400)`
(the code divides by 200, so 3xx responses count as success); otherwise the
full body is the success value.  A 403 response with body
`permission denied` yields an application error with exactly that message. -/
theorem doRequest_status_amended (status : Nat) (body : String) :
    (doRequest (HTTPOutcome.response status body) = Except.error (FError.appError body) ↔
      status < 200 ∨ 400 ≤ status) ∧
    (doRequest (HTTPOutcome.response status body) = Except.ok body ↔
      200 ≤ status ∧ status < 400) ∧
    doRequest (HTTPOutcome.response 403 "permission denied")
      = Except.error (FError.appError "permission denied") := by
  have hmain : doRequest (HTTPOutcome.response status body) =
      if status / 200 ≠ 1 then Except.error (FError.appError body) else Except.ok body := rfl
  by_cases hc : status / 200 = 1
  · have h2 : 200 ≤ status ∧ status < 400 := by omega
    rw [hmain, if_neg (by simp [hc])]
    refine ⟨?_, ⟨fun _ => h2, fun _ => rfl⟩, by decide⟩
    constructor
    · intro hcon; exact absurd hcon (by simp)
    · intro hr; exact absurd hr (by omega)
  · have h2 : status < 200 ∨ 400 ≤ status := by omega
    rw [hmain, if_pos hc]
    refine ⟨⟨fun _ => h2, fun _ => rfl⟩, ?_, by decide⟩
    constructor
    · intro hcon; exact absurd hcon (by simp)
    · intro hr; exact absurd hr (by omega)

/-- Claim C2, counterexample: `sanitizeURL "/"` is `https://`, which ends
with a slash, and sanitizing it again changes it (to `https:/`), so the
function is neither idempotent nor trailing-slash-free on every input;
on the empty input the result `https:/` carries no full scheme prefix. -/
theorem sanitizeURL_cex :
    hasSfx "/".data (sanitizeURL "/".data) = true ∧
    sanitizeURL (sanitizeURL "/".data) ≠ sanitizeURL "/".data ∧
    hasPfx "https://".data (sanitizeURL "".data) = false ∧
    hasPfx "http://".data (sanitizeURL "".data) = false := by decide

/-- Claim C2 (amended): for every input other than the empty string, `/`,
a bare `http://` or `https://`, and inputs ending in `//`, `sanitizeURL`
is idempotent, its result begins with `http://` or `https://`, and its
result never ends with `/`. -/
theorem sanitizeURL_amended (u : Str) (h0 : u ≠ []) (h1 : u ≠ "/".data)
    (h2 : u ≠ "http://".data) (h3 : u ≠ "https://".data)
    (h4 : hasSfx "//".data u = false) :
    sanitizeURL (sanitizeURL u) = sanitizeURL u ∧
    (hasPfx "https://".data (sanitizeURL u) = true ∨
      hasPfx "http://".data (sanitizeURL u) = true) ∧
    hasSfx "/".data (sanitizeURL u) = false := by
  obtain ⟨a, b, c⟩ := sanitize_good h0 h1 h2 h3 h4
  exact ⟨c, a, b⟩

/-- Witness for the amended C2 at the concrete input `example.com/`. -/
theorem sanitizeURL_amended_witness :
    sanitizeURL (sanitizeURL "example.com/".data) = sanitizeURL "example.com/".data ∧
    (hasPfx "https://".data (sanitizeURL "example.com/".data) = true ∨
      hasPfx "http://".data (sanitizeURL "example.com/".data) = true) ∧
    hasSfx "/".data (sanitizeURL "example.com/".data) = false :=
  sanitizeURL_amended "example.com/".data (by decide) (by decide) (by decide)
    (by decide) (by decide)

/-- Claim C4: the transport-error branch of `doRequest` returns the
distinct timeout kind (wrapping the original error) exactly when the error
is a `net.Error` whose `Timeout()` is true — whether a direct `net.Error`
from the dial phase or one wrapped in a `*url.Error` from the header-wait
phase — and passes every other transport error through unmodified. -/
theorem doRequest_timeout_classification (e : GoError) :
    doRequest (HTTPOutcome.transportErr e) =
      Except.error (if e.isNetError && e.timeout then FError.errTimeout e
                    else FError.passthrough e) := by
  cases e with
  | urlError w =>
    cases hwt : w.timeout with
    | true =>
      have hnet := GoError.timeout_isNet hwt
      simp only [doRequest]
      rw [show (GoError.urlError w).isNetError = true from rfl,
          show (GoError.urlError w).timeout = w.timeout from rfl, hnet, hwt]
      simp
    | false =>
      simp only [doRequest]
      rw [show (GoError.urlError w).isNetError = true from rfl,
          show (GoError.urlError w).timeout = w.timeout from rfl, hwt]
      simp
  | netError t m => cases t <;> simp [doRequest, GoError.isNetError, GoError.timeout]
  | otherError m => simp [doRequest, GoError.isNetError, GoError.timeout]

/-- Claim C9, counterexample: deriving `Child("")` from
`New("https://example.com")` yields the path `https://example.com/`, which
ends with a slash, refuting the invariant for the empty child name the
claim explicitly includes. -/
theorem new_child_cex :
    hasSfx "/".data ((exFb.child [] exHeap).1.url) = true ∧
    (exFb.child [] exHeap).1.url = "https://example.com/".data := by decide

/-- Claim C9 (amended): for every `New` input outside `sanitizeURL`'s four
failing shapes (empty, `/`, bare scheme, trailing `//`) and every sequence
of child names that are nonempty and do not end in `/`, the resulting
reference's path begins with `http://` or `https://` and never ends with
`/`. -/
theorem new_child_invariant (u : Str) (names : List Str) (client : Nat) (h : Heap)
    (h0 : u ≠ []) (h1 : u ≠ "/".data) (h2 : u ≠ "http://".data)
    (h3 : u ≠ "https://".data) (h4 : hasSfx "//".data u = false)
    (hn : ∀ n ∈ names, n ≠ [] ∧ n.getLast? ≠ some '/') :
    (hasPfx "https://".data
        (deriveChildren (Firebase.new u client h).1 (Firebase.new u client h).2 names).1.url = true ∨
      hasPfx "http://".data
        (deriveChildren (Firebase.new u client h).1 (Firebase.new u client h).2 names).1.url = true) ∧
    hasSfx "/".data
      (deriveChildren (Firebase.new u client h).1 (Firebase.new u client h).2 names).1.url = false := by
  have hnew : (Firebase.new u client h).1.url = sanitizeURL u := rfl
  have hg := sanitize_good h0 h1 h2 h3 h4
  exact deriveChildren_inv names _ _ (by rw [hnew]; exact hg.1) (by rw [hnew]; exact hg.2.1) hn

/-- Witness for the amended C9: `New("example.com")` then `Child("a")` and
`Child("b")`. -/
theorem new_child_invariant_witness :
    (hasPfx "https://".data
        (deriveChildren (Firebase.new "example.com".data 0 emptyHeap).1
          (Firebase.new "example.com".data 0 emptyHeap).2 ["a".data, "b".data]).1.url = true ∨
      hasPfx "http://".data
        (deriveChildren (Firebase.new "example.com".data 0 emptyHeap).1
          (Firebase.new "example.com".data 0 emptyHeap).2 ["a".data, "b".data]).1.url = true) ∧
    hasSfx "/".data
      (deriveChildren (Firebase.new "example.com".data 0 emptyHeap).1
        (Firebase.new "example.com".data 0 emptyHeap).2 ["a".data, "b".data]).1.url = false :=
  new_child_invariant "example.com".data ["a".data, "b".data] 0 emptyHeap
    (by decide) (by decide) (by decide) (by decide) (by decide) (by decide)

/-- Claim C3, counterexample: a successful `PushC` on a `New`-created
reference returns a struct whose query map and stop channel are Go nil
zero values (not the fresh, empty ones `New` makes), so `Auth` on the
returned reference panics (assignment to a nil map) while `Auth` on the
parent succeeds — the pushed reference is not usable exactly as one from
`New`. -/
theorem pushC_nil_map_cex :
    exPushed = Except.ok
      { url := "https://example.com/abc".data, params := none, client := 0,
        tokenSrc := none, stopWatching := none } ∧
    Except.map (fun c => (Firebase.auth c "t" exHeap).isNone) exPushed = Except.ok true ∧
    (exFb.auth "t" exHeap).isSome = true := by decide

/-- Claim C3 (amended): on a successful round trip whose body the external
deserializer decodes, `PushC` returns a reference whose path is the
parent's path + `/` + the `name` field of the decoded response and which
shares the parent's client, but whose query map and stop channel are left
as nil zero values, so `Auth` on it panics instead of working as on a
reference from `New`. -/
theorem pushC_result_shape (fb : Firebase) (out : HTTPOutcome)
    (um : String → Except String (List (String × String))) (bs : String)
    (m : List (String × String))
    (hok : doRequest out = Except.ok bs) (hum : um bs = Except.ok m) :
    fb.pushC out um = Except.ok
      { url := fb.url ++ '/' :: (lookupStr m "name").data,
        params := none, client := fb.client, tokenSrc := none, stopWatching := none } ∧
    (∀ (c : Firebase) (t : String) (h : Heap),
      fb.pushC out um = Except.ok c →
        c.auth t h = none ∧ c.params = none ∧ c.stopWatching = none) := by
  have h1 : fb.pushC out um = Except.ok
      { url := fb.url ++ '/' :: (lookupStr m "name").data,
        params := none, client := fb.client, tokenSrc := none, stopWatching := none } := by
    unfold Firebase.pushC
    rw [hok]
    simp [hum]
  refine ⟨h1, ?_⟩
  intro c t h hc
  rw [h1] at hc
  injection hc with hcc
  rw [← hcc]
  exact ⟨rfl, rfl, rfl⟩

/-- Witness for the amended C3 at a concrete 200 response with body
`{"name":"abc"}`. -/
theorem pushC_result_shape_witness :
    exFb.pushC (HTTPOutcome.response 200 "\x7b\"name\":\"abc\"\x7d") exUnmarshalName
      = Except.ok
        { url := exFb.url ++ '/' :: (lookupStr [("name", "abc")] "name").data,
          params := none, client := exFb.client, tokenSrc := none,
          stopWatching := none } :=
  (pushC_result_shape exFb (HTTPOutcome.response 200 "\x7b\"name\":\"abc\"\x7d")
    exUnmarshalName "\x7b\"name\":\"abc\"\x7d" [("name", "abc")]
    (by decide) (by decide)).1

/-- Claim C6: `MustValueC` returns the distinct missing-value error exactly
when the GET round trip succeeds with an empty or literal-`null` body; in
that case the result does not depend on the deserializer (it returns
before invoking it); any other successful body is handed to the
deserializer and decodes when the deserializer does. -/
theorem mustValueC_missing_iff (out : HTTPOutcome) (d d' : String → Except String Unit) :
    (Firebase.mustValueC out d = Except.error FError.valueMissing ↔
      (doRequest out = Except.ok "" ∨ doRequest out = Except.ok "null")) ∧
    ((doRequest out = Except.ok "" ∨ doRequest out = Except.ok "null") →
      Firebase.mustValueC out d = Firebase.mustValueC out d') ∧
    (∀ bs : String, doRequest out = Except.ok bs → bs ≠ "" → bs ≠ "null" →
      d bs = Except.ok () → Firebase.mustValueC out d = Except.ok ()) := by
  have hstep : ∀ (dd : String → Except String Unit) (bs : String),
      doRequest out = Except.ok bs →
      Firebase.mustValueC out dd =
        (if bs.length = 0 || bs == "null" then Except.error FError.valueMissing
         else match dd bs with
              | .ok _ => Except.ok ()
              | .error e => Except.error (FError.unmarshalErr e)) := by
    intro dd bs h
    unfold Firebase.mustValueC
    rw [h]
  cases hdo : doRequest out with
  | error e =>
    have hne : e ≠ FError.valueMissing := fun hcon =>
      doRequest_ne_valueMissing out (by rw [hdo, hcon])
    have herr : Firebase.mustValueC out d = Except.error e := by
      unfold Firebase.mustValueC
      rw [hdo]
    have herr2 : Firebase.mustValueC out d' = Except.error e := by
      unfold Firebase.mustValueC
      rw [hdo]
    refine ⟨?_, ?_, ?_⟩
    · rw [herr]
      constructor
      · intro hcon
        exact absurd (Except.error.inj hcon) hne
      · intro hcon
        rcases hcon with hh | hh <;> exact absurd hh (by simp)
    · intro _
      rw [herr, herr2]
    · intro bs hbs
      exact absurd hbs (by simp)
  | ok bs =>
    by_cases hb1 : bs = ""
    · subst hb1
      refine ⟨?_, ?_, ?_⟩
      · rw [hstep d "" hdo]
        simp
      · intro _
        rw [hstep d "" hdo, hstep d' "" hdo]
        simp
      · intro bs' hbs' hne1 _ _
        exact absurd (Except.ok.inj hbs').symm hne1
    · by_cases hb2 : bs = "null"
      · subst hb2
        refine ⟨?_, ?_, ?_⟩
        · rw [hstep d "null" hdo]
          simp
        · intro _
          rw [hstep d "null" hdo, hstep d' "null" hdo]
          simp
        · intro bs' hbs' _ hne2 _
          exact absurd (Except.ok.inj hbs').symm hne2
      · have hcond : (decide (bs.length = 0) || bs == "null") = false := by
          have hl : bs.length ≠ 0 := fun hc => hb1 ((string_length_zero_iff bs).mp hc)
          have hn2 : (bs == "null") = false := by simpa using hb2
          simp [hl, hn2]
        refine ⟨?_, ?_, ?_⟩
        · rw [hstep d bs hdo, hcond]
          simp only [Bool.false_eq_true, if_false]
          constructor
          · intro hcon
            cases hd : d bs with
            | ok u => rw [hd] at hcon; exact absurd hcon (by simp)
            | error e2 => rw [hd] at hcon; exact absurd hcon (by simp)
          · intro hcon
            rcases hcon with hh | hh
            · exact absurd (Except.ok.inj hh) hb1
            · exact absurd (Except.ok.inj hh) hb2
        · intro hcon
          rcases hcon with hh | hh
          · exact absurd (Except.ok.inj hh) hb1
          · exact absurd (Except.ok.inj hh) hb2
        · intro bs' hbs' hne1 hne2 hd
          have hbseq : bs = bs' := Except.ok.inj hbs'
          subst hbseq
          rw [hstep d bs hdo, hcond]
          simp only [Bool.false_eq_true, if_false]
          rw [hd]

/-- Witness for C6: concrete `null`, empty, and `{"x":1}` bodies. -/
theorem mustValueC_missing_iff_witness :
    Firebase.mustValueC (HTTPOutcome.response 200 "null") (fun _ => Except.ok ())
        = Except.error FError.valueMissing ∧
    Firebase.mustValueC (HTTPOutcome.response 200 "") (fun _ => Except.error "boom")
        = Except.error FError.valueMissing ∧
    Firebase.mustValueC (HTTPOutcome.response 200 "\x7b\"x\":1\x7d") (fun _ => Except.ok ())
        = Except.ok () := by
  refine ⟨?_, ?_, ?_⟩
  · exact (mustValueC_missing_iff (HTTPOutcome.response 200 "null")
      (fun _ => Except.ok ()) (fun _ => Except.ok ())).1.mpr (Or.inr (by decide))
  · exact (mustValueC_missing_iff (HTTPOutcome.response 200 "")
      (fun _ => Except.error "boom") (fun _ => Except.error "boom")).1.mpr (Or.inl (by decide))
  · exact (mustValueC_missing_iff (HTTPOutcome.response 200 "\x7b\"x\":1\x7d")
      (fun _ => Except.ok ()) (fun _ => Except.ok ())).2.2 "\x7b\"x\":1\x7d"
      (by decide) (by decide) (by decide) rfl

/-- Claim C7: when a redirect within the hop limit is followed, the policy
assigns every header entry of the first request onto the redirected
request (overwriting that key's existing values), so the redirected
request carries every header of the first. -/
theorem redirect_copies_first_headers (reqH first : Header) (rest : List Header)
    (hlen : (first :: rest).length ≤ defaultRedirectLimit)
    (hnd : first.Pairwise (fun a b => a.1 ≠ b.1)) :
    redirectPreserveHeaders reqH (first :: rest)
        = Except.ok (first.foldl (fun acc kv => acc.setVals kv.1 kv.2) reqH) ∧
    (∀ k vs, (k, vs) ∈ first →
      (first.foldl (fun acc kv => acc.setVals kv.1 kv.2) reqH).vals k = some vs) := by
  constructor
  · simp only [redirectPreserveHeaders]
    rw [if_neg (Nat.not_lt.mpr hlen)]
  · intro k vs hmem
    exact foldl_setVals_mem first k vs reqH hnd hmem

/-- Witness for C7: a one-hop redirect whose first request carries an
`Authorization` header that overwrites the redirected request's state. -/
theorem redirect_copies_first_headers_witness :
    Except.map (fun out => (Header.vals out "Authorization", Header.vals out "Accept"))
        (redirectPreserveHeaders [("Accept", ["x"])]
          [[("Authorization", ["secret"]), ("Accept", ["y"])]])
      = Except.ok (some ["secret"], some ["y"]) := by
  have h := redirect_copies_first_headers [("Accept", ["x"])]
    [("Authorization", ["secret"]), ("Accept", ["y"])] [] (by decide) (by decide)
  rw [h.1]
  decide

/-- Claim C8, counterexample: `Auth("a")`, then `Auth("b")` followed by
`Unauth()`, leaves the query map empty, not in its pre-`Auth("b")` state
`auth=a` — `Unauth` deletes the key outright rather than restoring the
previous binding. -/
theorem auth_unauth_cex :
    exHeapA.get 0 = [("auth", ["a"])] ∧
    exHeapU.get 0 = [] ∧
    exHeapU.get 0 ≠ exHeapA.get 0 := by decide

/-- Claim C8 (amended): when the reference's query map does not already
bind the `auth` key, `Auth(t)` followed by `Unauth()` restores the map
exactly, with no leftover key. -/
theorem auth_unauth_restores (fb : Firebase) (h : Heap) (r : Nat) (t : String)
    (hp : fb.params = some r)
    (hk : ∀ kv ∈ h.get r, kv.1 ≠ "auth") :
    ∀ h₂, fb.auth t h = some h₂ → (fb.unauth h₂).get r = h.get r := by
  intro h₂ hauth
  unfold Firebase.auth at hauth
  rw [hp] at hauth
  simp only [Option.some.injEq] at hauth
  rw [← hauth]
  unfold Firebase.unauth
  rw [hp, Heap.get_write_self, Heap.get_write_self]
  exact Params.del_set_cancel (h.get r) "auth" t hk

/-- Witness for the amended C8 on a concrete `New` reference. -/
theorem auth_unauth_restores_witness :
    (exFb.unauth (exHeap.write 0 ((exHeap.get 0).set "auth" "tok"))).get 0 = exHeap.get 0 :=
  auth_unauth_restores exFb exHeap 0 "tok" (by decide) (by decide) _ rfl

/-- `Child` builds exactly this struct and this heap. -/
theorem child_parts (fb : Firebase) (name : Str) (h : Heap) :
    (fb.child name h).1 =
      { url := fb.url ++ '/' :: name, params := some h.size, client := fb.client,
        tokenSrc := fb.tokenSrc, stopWatching := some () } ∧
    (fb.child name h).2
      = (h.alloc (match fb.params with | none => [] | some r => h.get r)).1 :=
  ⟨rfl, rfl⟩

/-- Claim C5, counterexample: with a token source installed, the child's
rendered query string contains the freshly resolved `access_token`, which
is not in the parent's query map, so `r.Child(name).String()` does not
render the canonical encoding of `r`'s query map (here empty). -/
theorem child_render_token_cex :
    ((exChildTok.1).render exChildTok.2).1
        = "https://example.com/b/.json?access_token=T".data ∧
    encodeParams (exHeap.get 0) = "" ∧
    ((exChildTok.1).render exChildTok.2).1
      ≠ exFbTok.url ++ '/' :: "b".data ++ "/.json".data ++ querySuffix (exHeap.get 0) := by
  decide

/-- Claim C5 (amended): when the parent has no token source, the child's
rendered query string is exactly the canonical encoding of the parent's
query map at derivation time; and in all cases — token source installed or
not — later `Auth`/`Unauth`/`AccessToken` on the parent leave the
already-derived child's query cell and rendered string unchanged
(copy-on-derive, no aliasing). -/
theorem child_render_indep (fb : Firebase) (h : Heap) (r : Nat) (name : Str)
    (t : String) (c : Firebase) (h₁ : Heap)
    (hp : fb.params = some r) (hr : r < h.size)
    (hc : fb.child name h = (c, h₁)) :
    (fb.tokenSrc = none → (∀ kv ∈ h.get r, kv.2 ≠ []) →
      (c.render h₁).1 = fb.url ++ '/' :: name ++ "/.json".data ++ querySuffix (h.get r)) ∧
    (∀ h₂, fb.auth t h₁ = some h₂ →
      h₂.get h.size = h₁.get h.size ∧ (c.render h₂).1 = (c.render h₁).1) ∧
    ((fb.unauth h₁).get h.size = h₁.get h.size ∧
      (c.render (fb.unauth h₁)).1 = (c.render h₁).1) ∧
    (∀ src, (fb.accessToken src h₁).2 = h₁) := by
  obtain ⟨hc1, hc2⟩ := child_parts fb name h
  rw [hc] at hc1 hc2
  simp only at hc1 hc2
  rw [hp] at hc2
  simp only at hc2
  have hcp : c.params = some h.size := by rw [hc1]
  have hcurl : c.url = fb.url ++ '/' :: name := by rw [hc1]
  have hget1 : h₁.get h.size = h.get r := by
    rw [hc2]; exact Heap.get_alloc_new h (h.get r)
  refine ⟨?_, ?_, ?_, ?_⟩
  · intro hts hnv
    have hcts : c.tokenSrc = none := by rw [hc1]; exact hts
    have hed : encDec (h.get r) = h.get r := by
      unfold encDec
      apply List.filter_eq_self.mpr
      intro kv hkv
      have h2 := hnv kv hkv
      cases hkv2 : kv.2 with
      | nil => exact absurd hkv2 h2
      | cons x xs => rfl
    rw [render_fst]
    have hrp : renderedParams c h₁ = h.get r := by
      simp only [renderedParams, hcp, hcts]
      rw [hget1, hed]
    rw [hrp, hcurl]
  · intro h₂ hauth
    unfold Firebase.auth at hauth
    rw [hp] at hauth
    simp only [Option.some.injEq] at hauth
    subst hauth
    have hfr : (h₁.write r ((h₁.get r).set "auth" t)).get h.size = h₁.get h.size :=
      Heap.get_write_ne h₁ _ (Nat.ne_of_lt hr).symm
    exact ⟨hfr, render_congr c hcp hfr⟩
  · have hun : fb.unauth h₁ = h₁.write r ((h₁.get r).del "auth") := by
      unfold Firebase.unauth
      rw [hp]
    rw [hun]
    have hfr : (h₁.write r ((h₁.get r).del "auth")).get h.size = h₁.get h.size :=
      Heap.get_write_ne h₁ _ (Nat.ne_of_lt hr).symm
    exact ⟨hfr, render_congr c hcp hfr⟩
  · intro src
    rfl

/-- Witness for the amended C5: the render-equality half on a parent whose
query map holds `auth=a`, and the no-aliasing half on a parent with a token
source installed — after the parent's `Auth("zz")`, the already-derived
child still renders the same string. -/
theorem child_render_indep_witness :
    ((((exFb.child "b".data exHeapA).1).render (exFb.child "b".data exHeapA).2).1
      = exFb.url ++ '/' :: "b".data ++ "/.json".data ++ querySuffix (exHeapA.get 0)) ∧
    ((((exFbTok.child "b".data exHeap).1).render
        (((exFbTok.child "b".data exHeap).2).write 0
          ((((exFbTok.child "b".data exHeap).2).get 0).set "auth" "zz"))).1
      = (((exFbTok.child "b".data exHeap).1).render
          (exFbTok.child "b".data exHeap).2).1) :=
  ⟨(child_render_indep exFb exHeapA 0 "b".data "zz"
      (exFb.child "b".data exHeapA).1 (exFb.child "b".data exHeapA).2
      (by decide) (by decide) rfl).1 (by decide) (by decide),
   ((child_render_indep exFbTok exHeap 0 "b".data "zz"
      (exFbTok.child "b".data exHeap).1 (exFbTok.child "b".data exHeap).2
      (by decide) (by decide) rfl).2.1
      (((exFbTok.child "b".data exHeap).2).write 0
        ((((exFbTok.child "b".data exHeap).2).get 0).set "auth" "zz")) rfl).2⟩

/-- Claim C10: rendering never mutates the reference: after any number of
`String()` calls the stored query map cell is unchanged (in particular no
`access_token` entry accumulates in it, even with a token source
installed), and rendering again still produces the same string. -/
theorem render_no_mutation (fb : Firebase) (h : Heap) (r : Nat) (n : Nat)
    (hp : fb.params = some r) (hr : r < h.size) :
    (fb.renderN n h).get r = h.get r ∧
    ((fb.renderN n h).get r).vals "access_token" = (h.get r).vals "access_token" ∧
    (fb.render (fb.renderN n h)).1 = (fb.render h).1 := by
  have hf := renderN_frame fb n h hr
  exact ⟨hf.1, by rw [hf.1], render_congr fb hp hf.1⟩

/-- Witness for C10: three renders of a token-source-bearing reference
leave its stored query cell unchanged. -/
theorem render_no_mutation_witness :
    (exFbTok.renderN 3 exHeap).get 0 = exHeap.get 0 :=
  (render_no_mutation exFbTok exHeap 0 3 (by decide) (by decide)).1
